import Mathlib

/-
Verification of the event-detection and statistical-thresholding pipeline
of SPiN-Lab event_detection (ev.py).

Conventions of the embedding:
- Real-valued arrays are modelled with rational numbers; time-series
  matrices are stored column-major (a list of node columns, each a list of
  T values), matching the column-wise operations of the source (z-scoring
  per node, edge series as products of two node columns).
- The null RSS matrix rssr (T rows, numTrials columns) and the edge
  time-series matrix are stored row-major (a list of T rows) where the
  source indexes them row-first.
- IEEE special values (NaN, plus/minus infinity) are modelled by the
  FloatVal type; nan_to_num mirrors numpy nan_to_num (NaN to 0, infinities
  to the largest-magnitude finite double, here FMAX).
- The square root inside the z-score standard deviation is not rational;
  it is abstracted by a parameter sq, constrained only where a proof needs
  it (sq 0 = 0, matching sqrt 0 = 0).
- Python exceptions are modelled by Option where indexing may fail.
-/

/-- Pooled null distribution: the flattened T x numTrials null RSS matrix
(rssr_flat = rssr.flatten() in ev.py, line 108). -/
def pool (rssr : List (List ℚ)) : List ℚ :=
  rssr.flatten

/-- Empirical p-value of one observed value against a pooled distribution:
np.mean(rssr_flat >= rss[i]) (ev.py line 110), i.e. the fraction of pooled
values that are at least x. -/
def pval (po : List ℚ) (x : ℚ) : ℚ :=
  ((po.countP fun z => decide (x ≤ z)) : ℚ) / (po.length : ℚ)

/-- The p-value vector computed by the loop at ev.py lines 107-110:
p[i] = mean over the flattened pooled matrix of (value >= rss[i]). -/
def pvec (rssr : List (List ℚ)) (rss : List ℚ) : List ℚ :=
  (List.range rss.length).map fun i => pval (pool rssr) (rss.getD i 0)

/-- The difference trick of ev.py line 118: dff[k] = idx[k] - k, computed
with a running offset k. -/
def dffList : ℕ → List ℕ → List ℤ
  | _, [] => []
  | k, x :: l => ((x : ℤ) - (k : ℤ)) :: dffList (k + 1) l

/-- np.unique: the sorted list of distinct values. -/
def npUnique (l : List ℤ) : List ℤ :=
  Finset.sort (· ≤ ·) l.toFinset

/-- Members of idx whose dff value equals u (ev.py line 125:
idxevent = idx[dff == unq[ievent]]), keeping list order. -/
def groupOf (u : ℤ) : ℕ → List ℕ → List ℕ
  | _, [] => []
  | k, x :: l => if (x : ℤ) - (k : ℤ) = u then x :: groupOf u (k + 1) l else groupOf u (k + 1) l

/-- Segments produced by the source grouping (ev.py lines 118-125) at
running offset k: one group per unique dff value. -/
def dffGroupsAux (k : ℕ) (idx : List ℕ) : List (List ℕ) :=
  (npUnique (dffList k idx)).map fun u => groupOf u k idx

/-- Segments of the candidate index set as the source computes them. -/
def segmentsByDff (idx : List ℕ) : List (List ℕ) :=
  dffGroupsAux 0 idx

/-- Explicit-scan segmentation: split a sorted index list into maximal runs
of consecutive integers, detecting contiguity by comparing each element
with its successor (the reference formulation of the spec). -/
def splitRuns : List ℕ → List (List ℕ)
  | [] => []
  | [x] => [[x]]
  | x :: y :: rest =>
    if y = x + 1 then (x :: (splitRuns (y :: rest)).headI) :: (splitRuns (y :: rest)).tail
    else [x] :: splitRuns (y :: rest)

/-- First index attaining the maximal rss value, scanning left to right with
a current best: the member selected by idxevent[np.argmax(rssevent)]
(ev.py lines 126-128), since np.argmax returns the first maximum. -/
def firstArgmax (rss : ℕ → ℚ) : ℕ → List ℕ → ℕ
  | x, [] => x
  | x, y :: l => if rss x < rss y then firstArgmax rss y l else firstArgmax rss x l

/-- Peak of one segment: its member with maximal observed RSS (first one on
ties, as np.argmax does). -/
def peakOf (rss : ℕ → ℚ) : List ℕ → ℕ
  | [] => 0
  | x :: l => firstArgmax rss x l

/-- PeakSet computed from the source dff grouping. -/
def idxpeak_dff (rss : ℕ → ℚ) (idx : List ℕ) : List ℕ :=
  (segmentsByDff idx).map (peakOf rss)

/-- PeakSet computed from the explicit-scan segmentation. -/
def idxpeak_scan (rss : ℕ → ℚ) (idx : List ℕ) : List ℕ :=
  (splitRuns idx).map (peakOf rss)

/-- threshold_ets_matrix (ev.py lines 156-171): start from zeros, copy the
selected rows from the edge time-series matrix, then zero every remaining
entry that is below thr. -/
def threshold_ets_matrix (ets : List (List ℚ)) (sel : List ℕ) (thr : ℚ) : List (List ℚ) :=
  (List.range ets.length).map fun ti =>
    (ets.getD ti []).map fun x =>
      if (if ti ∈ sel then x else 0) < thr then 0 else if ti ∈ sel then x else 0

/-- Running partial sums with accumulator (np.cumsum). -/
def cumsumAux : ℚ → List ℚ → List ℚ
  | _, [] => []
  | a, x :: l => (a + x) :: cumsumAux (a + x) l

/-- np.cumsum of a histogram. -/
def cumsum (l : List ℚ) : List ℚ :=
  cumsumAux 0 l

/-- cumsum_percentile = np.cumsum(h) / np.sum(h) * 100 (ev.py line 207). -/
def cumsum_pct (h : List ℚ) : List ℚ :=
  (cumsum h).map fun c => c / h.sum * 100

/-- thr = bin_edges[len(cumsum_percentile[cumsum_percentile <= percentile])]
(ev.py line 208); Option models a Python IndexError on out-of-range
indexing. -/
def thr_from_hist (h : List ℚ) (edges : List ℚ) (pct : ℚ) : Option ℚ :=
  edges.get? ((cumsum_pct h).countP fun c => decide (c ≤ pct))

/-- ets_hist_sum = np.sum(ets_hist, axis=0) (ev.py line 206): bin-wise sum
of the per-trial histograms. -/
def binwise_sum (hists : List (List ℚ)) (nbins : ℕ) : List ℚ :=
  (List.range nbins).map fun b => (hists.map fun hi => hi.getD b 0).sum

/-- Threshold step of surrogates_to_array (ev.py lines 206-208), applied to
the per-trial histograms and the shared bin-edge array. -/
def surrogates_to_array (hists : List (List ℚ)) (nbins : ℕ) (edges : List ℚ) (pct : ℚ) :
    Option ℚ :=
  thr_from_hist (binwise_sum hists nbins) edges pct

/-- The AUC-mode fix-up of ev.py lines 96-98: rssr[0, :] = 0. The matrix is
stored as a list of T rows (time points) of numTrials values; the whole
first row is overwritten with zeros. -/
def auc_fixup (rssr : List (List ℚ)) : List (List ℚ) :=
  match rssr with
  | [] => []
  | r :: rest => List.replicate r.length 0 :: rest

/-- IEEE double values as far as the pipeline distinguishes them: a finite
value (modelled exactly as a rational) or one of NaN, +inf, -inf. -/
inductive FloatVal
  | fin (q : ℚ)
  | nan
  | pinf
  | ninf
  deriving DecidableEq

/-- Largest finite double, the value np.nan_to_num substitutes for +inf
(1.7976931348623157e308). -/
def FMAX : ℚ :=
  (17976931348623157 : ℚ) * 10 ^ 292

/-- np.nan_to_num with default arguments: NaN becomes 0, +inf becomes the
largest finite double, -inf its negation, finite values pass through. -/
def nan_to_num : FloatVal → ℚ
  | .fin q => q
  | .nan => 0
  | .pinf => FMAX
  | .ninf => -FMAX

/-- Elementwise nan_to_num over a loaded matrix (ev.py line 40). -/
def clean_mat (zc : List (List FloatVal)) : List (List ℚ) :=
  zc.map (List.map nan_to_num)

/-- Edge index pairs: np.argwhere(np.triu(np.ones(n), 1)) (ev.py line 20),
row-major list of all (u, v) with u < v < n. -/
def edgePairs (n : ℕ) : List (ℕ × ℕ) :=
  (List.range n).flatMap fun u =>
    ((List.range n).filter fun v => decide (u < v)).map fun v => (u, v)

/-- Edge time series (ev.py line 23), column-major: one column per edge,
the elementwise product of the two endpoint node columns. -/
def ets_cols (cols : List (List ℚ)) : List (List ℚ) :=
  (edgePairs cols.length).map fun p =>
    List.zipWith (fun a b => a * b) (cols.getD p.1 []) (cols.getD p.2 [])

/-- Squared RSS per time point (ev.py line 81 before the square root): the
sum over edge columns of the squared edge values; T is the number of time
points. -/
def rss_sq_cols (etsC : List (List ℚ)) (T : ℕ) : List ℚ :=
  etsC.foldr (fun col acc => List.zipWith (fun a b => a + b) (col.map fun x => x ^ 2) acc)
    (List.replicate T 0)

/-- IEEE division on finite operands: 0/0 is NaN, x/0 for nonzero x is a
signed infinity, otherwise the exact quotient. -/
def fdiv (a b : ℚ) : FloatVal :=
  if b = 0 then (if a = 0 then FloatVal.nan else if 0 < a then FloatVal.pinf else FloatVal.ninf)
  else FloatVal.fin (a / b)

/-- Column mean used by scipy.stats.zscore. -/
def colMean (col : List ℚ) : ℚ :=
  col.sum / (col.length : ℚ)

/-- Sum of squared deviations of a column from its mean. -/
def colSS (col : List ℚ) : ℚ :=
  (col.map fun x => (x - colMean col) ^ 2).sum

/-- scipy.stats.zscore(col, ddof=1): each entry is (x - mean) divided by
the sample standard deviation sqrt(colSS / (length - 1)). The square root
is abstracted by the parameter sq; when the column is constant the
argument is 0 and the division is 0/0 = NaN, as in floating point. -/
def zscoreCol (sq : ℚ → ℚ) (col : List ℚ) : List FloatVal :=
  col.map fun x => fdiv (x - colMean col) (sq (colSS col / ((col.length : ℚ) - 1)))

/-- Column-wise z-scoring of the whole matrix (axis 0 of scipy zscore). -/
def zscoreMat (sq : ℚ → ℚ) (cols : List (List ℚ)) : List (List FloatVal) :=
  cols.map (zscoreCol sq)

/-- z_ts = np.nan_to_num(zscore(data, ddof=1)) (ev.py line 73). -/
def z_ts_of (sq : ℚ → ℚ) (cols : List (List ℚ)) : List (List ℚ) :=
  clean_mat (zscoreMat sq cols)

/-- Helper: getD of a range-map picks the function value at an in-range
index. -/
theorem getD_range_map {α : Type} (f : ℕ → α) (d : α) {n t : ℕ} (h : t < n) :
    ((List.range n).map f).getD t d = f t := by
  rw [List.getD_eq_getElem _ _ (by simpa using h)]
  simp

/-- C1: the empirical p-value at each time point is the fraction of all
pooled surrogate RSS values, flattened across all time points and all
trials into one global reference distribution, that are at least the
observed RSS at that time point; the denominator is the total pooled count,
not a per-time-point count. -/
theorem pvalue_pooled_global (rssr : List (List ℚ)) (rss : List ℚ) (t : ℕ)
    (ht : t < rss.length) :
    (pvec rssr rss).getD t 0 =
      (((rssr.map fun row => row.countP fun z => decide (rss.getD t 0 ≤ z)).sum : ℕ) : ℚ) /
        (((rssr.map List.length).sum : ℕ) : ℚ) := by
  unfold pvec
  rw [getD_range_map _ _ ht]
  unfold pval pool
  rw [List.countP_flatten, List.length_flatten]

/-- Witness for C1 at a concrete pooled matrix and RSS vector. -/
theorem pvalue_pooled_global_witness :
    (pvec [[1, 2], [3, 4]] [2, 3]).getD 1 0 =
      (((([[1, 2], [3, 4]] : List (List ℚ)).map fun row =>
            row.countP fun z => decide (([2, 3] : List ℚ).getD 1 0 ≤ z)).sum : ℕ) : ℚ) /
        (((([[1, 2], [3, 4]] : List (List ℚ)).map List.length).sum : ℕ) : ℚ) :=
  pvalue_pooled_global [[1, 2], [3, 4]] [2, 3] 1 (by decide)

/-- C4: the empirical p-value is monotonically non-increasing in the
observed RSS: whenever RSS at t1 is at least RSS at t2, the computed
p-value at t1 is at most the one at t2. -/
theorem pvalue_monotone (rssr : List (List ℚ)) (rss : List ℚ) (t1 t2 : ℕ)
    (h1 : t1 < rss.length) (h2 : t2 < rss.length)
    (hr : rss.getD t2 0 ≤ rss.getD t1 0) :
    (pvec rssr rss).getD t1 0 ≤ (pvec rssr rss).getD t2 0 := by
  unfold pvec
  rw [getD_range_map _ _ h1, getD_range_map _ _ h2]
  unfold pval
  have hc : ((pool rssr).countP fun z => decide (rss.getD t1 0 ≤ z)) ≤
      ((pool rssr).countP fun z => decide (rss.getD t2 0 ≤ z)) := by
    refine List.countP_mono_left fun z _ hz => ?_
    simp only [decide_eq_true_eq] at hz ⊢
    linarith
  rcases Nat.eq_zero_or_pos (pool rssr).length with h0 | hpos
  · have hnil : pool rssr = [] := List.length_eq_zero.mp h0
    simp [hnil]
  · have hposq : (0 : ℚ) < ((pool rssr).length : ℚ) := by exact_mod_cast hpos
    exact (div_le_div_iff_of_pos_right hposq).mpr (by exact_mod_cast hc)

/-- Witness for C4 at a concrete pooled matrix and RSS vector. -/
theorem pvalue_monotone_witness :
    (pvec [[1, 2], [3, 4]] [3, 2]).getD 0 0 ≤ (pvec [[1, 2], [3, 4]] [3, 2]).getD 1 0 :=
  pvalue_monotone [[1, 2], [3, 4]] [3, 2] 0 1 (by decide) (by decide) (by decide)

/-- C3: the thresholded matrix is exactly zero at every row not among the
selected peak indices; within selected rows, entries below thr are zeroed
and the remaining entries equal the corresponding input entries. -/
theorem threshold_zero_outside (ets : List (List ℚ)) (sel : List ℕ) (thr : ℚ) (t e : ℕ)
    (ht : t < ets.length) (he : e < (ets.getD t []).length) :
    (t ∉ sel → ((threshold_ets_matrix ets sel thr).getD t []).getD e 0 = 0) ∧
    (t ∈ sel → (ets.getD t []).getD e 0 < thr →
      ((threshold_ets_matrix ets sel thr).getD t []).getD e 0 = 0) ∧
    (t ∈ sel → thr ≤ (ets.getD t []).getD e 0 →
      ((threshold_ets_matrix ets sel thr).getD t []).getD e 0 = (ets.getD t []).getD e 0) := by
  have hrow : (threshold_ets_matrix ets sel thr).getD t [] =
      (ets.getD t []).map fun x =>
        if (if t ∈ sel then x else 0) < thr then 0 else if t ∈ sel then x else 0 := by
    unfold threshold_ets_matrix
    exact getD_range_map _ _ ht
  have hentry : ((threshold_ets_matrix ets sel thr).getD t []).getD e 0 =
      (if (if t ∈ sel then (ets.getD t []).getD e 0 else 0) < thr then 0
        else if t ∈ sel then (ets.getD t []).getD e 0 else 0) := by
    rw [hrow, List.getD_eq_getElem _ _ (by simpa using he), List.getElem_map,
      List.getD_eq_getElem _ _ he]
  refine ⟨fun hn => ?_, fun hs hlt => ?_, fun hs hge => ?_⟩
  · rw [hentry]
    simp only [if_neg hn]
    split <;> rfl
  · rw [hentry]
    simp only [if_pos hs]
    rw [if_pos hlt]
  · rw [hentry]
    simp only [if_pos hs]
    rw [if_neg (not_lt.mpr hge)]

/-- Witness for C3 at a concrete matrix, selection and threshold. -/
theorem threshold_zero_outside_witness :
    (0 ∉ ([1] : List ℕ) →
      ((threshold_ets_matrix [[1, 5], [2, 6]] [1] 3).getD 0 []).getD 0 0 = 0) ∧
    (0 ∈ ([1] : List ℕ) → (([[1, 5], [2, 6]] : List (List ℚ)).getD 0 []).getD 0 0 < 3 →
      ((threshold_ets_matrix [[1, 5], [2, 6]] [1] 3).getD 0 []).getD 0 0 = 0) ∧
    (0 ∈ ([1] : List ℕ) → 3 ≤ (([[1, 5], [2, 6]] : List (List ℚ)).getD 0 []).getD 0 0 →
      ((threshold_ets_matrix [[1, 5], [2, 6]] [1] 3).getD 0 []).getD 0 0 =
        (([[1, 5], [2, 6]] : List (List ℚ)).getD 0 []).getD 0 0) :=
  threshold_zero_outside [[1, 5], [2, 6]] [1] 3 0 0 (by decide) (by decide)

/-- Helper: getD commutes with map when the default is the image of a
default. -/
theorem getD_map_default {α β : Type} (f : α → β) (l : List α) (i : ℕ) (d : α) :
    (l.map f).getD i (f d) = f (l.getD i d) := by
  induction l generalizing i with
  | nil => rfl
  | cons x l ih =>
    cases i with
    | zero => rfl
    | succ n => exact ih n

/-- Helper: running partial sums preserve length. -/
theorem length_cumsumAux (l : List ℚ) : ∀ a : ℚ, (cumsumAux a l).length = l.length := by
  induction l with
  | nil => intro a; rfl
  | cons x l ih =>
    intro a
    simpa [cumsumAux] using ih (a + x)

/-- C6 counterexample: the fix-up rssr[0, :] = 0 zeroes time point 0 of
EVERY trial, not only of trial index 0: at the concrete null matrix
[[5, 7], [3, 4]] (rows = time points, columns = trials) the entry of trial
1 at time 0 does not keep its value 7 but becomes 0. -/
theorem auc_fixup_cex :
    ((auc_fixup [[5, 7], [3, 4]]).getD 0 []).getD 1 0 = 0 ∧
    ¬ ((auc_fixup [[5, 7], [3, 4]]).getD 0 []).getD 1 0 =
        (([[5, 7], [3, 4]] : List (List ℚ)).getD 0 []).getD 1 0 := by
  decide

/-- C6 (amended): in alternative-statistic mode the fix-up forces the RSS
values of ALL trials at time point 0 to zero, and every entry at a time
point greater than 0 keeps the value returned by its trial. -/
theorem auc_fixup_rows (rssr : List (List ℚ)) :
    (∀ t, 0 < t → (auc_fixup rssr).getD t [] = rssr.getD t []) ∧
    (rssr ≠ [] → (auc_fixup rssr).getD 0 [] = List.replicate (rssr.getD 0 []).length 0) := by
  constructor
  · intro t ht
    cases rssr with
    | nil => rfl
    | cons r rest =>
      cases t with
      | zero => exact absurd ht (lt_irrefl 0)
      | succ n => rfl
  · intro hne
    cases rssr with
    | nil => exact absurd rfl hne
    | cons r rest => rfl

/-- Witness for the amended C6 at a concrete matrix. -/
theorem auc_fixup_rows_witness :
    (auc_fixup [[5, 7], [3, 4]]).getD 1 [] = ([[5, 7], [3, 4]] : List (List ℚ)).getD 1 [] ∧
    (auc_fixup [[5, 7], [3, 4]]).getD 0 [] =
      List.replicate (([[5, 7], [3, 4]] : List (List ℚ)).getD 0 []).length 0 :=
  ⟨(auc_fixup_rows [[5, 7], [3, 4]]).1 1 (by decide),
   (auc_fixup_rows [[5, 7], [3, 4]]).2 (by decide)⟩

/-- C7 counterexample: np.nan_to_num does not replace +infinity with 0: a
loaded surrogate consisting of one +inf value is cleaned to the largest
finite double FMAX, which is not 0. -/
theorem nan_cleanup_cex :
    clean_mat [[FloatVal.pinf]] = [[FMAX]] ∧ FMAX ≠ 0 := by
  constructor
  · rfl
  · norm_num [FMAX]

/-- C7 (amended): the cleanup replaces every NaN with 0 and the infinities
with the largest-magnitude finite values (plus or minus FMAX), keeps
finite values unchanged, and therefore hands only finite rational values
to the edge-series and RSS computation; no error is raised (the cleanup is
a total function). -/
theorem nan_cleanup_amended (zr : List (List FloatVal)) (i j : ℕ) :
    ((clean_mat zr).getD i []).getD j 0 = nan_to_num ((zr.getD i []).getD j FloatVal.nan) ∧
    nan_to_num FloatVal.nan = 0 ∧ (∀ q, nan_to_num (FloatVal.fin q) = q) ∧
    nan_to_num FloatVal.pinf = FMAX ∧ nan_to_num FloatVal.ninf = -FMAX := by
  refine ⟨?_, rfl, fun q => rfl, rfl, rfl⟩
  have h1 : (clean_mat zr).getD i [] = List.map nan_to_num (zr.getD i []) := by
    exact getD_map_default (List.map nan_to_num) zr i []
  rw [h1]
  exact getD_map_default nan_to_num (zr.getD i []) j FloatVal.nan

/-- C8 counterexample: at a 3 x 1 input (N = 1 < 2 nodes, stored as a
single column of 3 time points) the pipeline does not fail: the edge index
set is empty, the edge time series is computed (with zero edges), and the
RSS is the all-zero vector, i.e. the computation runs to completion
instead of raising an InvalidInputShape error. -/
theorem shape_no_validation_cex :
    edgePairs 1 = [] ∧ ets_cols [[1, 2, 3]] = [] ∧
    rss_sq_cols (ets_cols [[1, 2, 3]]) 3 = [0, 0, 0] := by
  decide

/-- C8 (amended): the code performs no input-shape validation: for any
matrix with fewer than 2 node columns the edge pair list is empty, the
edge time series is the empty list of columns, and the (squared) RSS is
identically zero over all T time points; no error is signalled and the
computation completes. -/
theorem shape_no_validation (cols : List (List ℚ)) (T : ℕ) (hn : cols.length < 2) :
    edgePairs cols.length = [] ∧ ets_cols cols = [] ∧
    rss_sq_cols (ets_cols cols) T = List.replicate T 0 := by
  have hp : edgePairs cols.length = [] := by
    have h01 : cols.length = 0 ∨ cols.length = 1 := by omega
    rcases h01 with h | h <;> rw [h] <;> rfl
  have he : ets_cols cols = [] := by
    unfold ets_cols
    rw [hp]
    rfl
  refine ⟨hp, he, ?_⟩
  rw [he]
  rfl

/-- Witness for the amended C8 at a concrete 3 x 1 input. -/
theorem shape_no_validation_witness :
    edgePairs ([[1, 2, 3]] : List (List ℚ)).length = [] ∧ ets_cols [[1, 2, 3]] = [] ∧
    rss_sq_cols (ets_cols [[1, 2, 3]]) 3 = List.replicate 3 0 :=
  shape_no_validation [[1, 2, 3]] 3 (by decide)

/-- C9 counterexample: with a percentile above all cumulative mass
(percentile 150, cumulative percentages [25, 50, 75, 100]) the threshold
step returns the last bin edge (some 100) instead of signalling an error:
the count equals the number of bins and indexes the final bin edge. -/
theorem hist_threshold_clamp_cex :
    thr_from_hist [1, 1, 1, 1] [0, 25, 50, 75, 100] 150 = some 100 := by
  norm_num [thr_from_hist, cumsum_pct, cumsum, cumsumAux, List.countP_cons, List.countP_nil]

/-- C9 (amended): when the target percentile is at least every cumulative
percentage of the pooled histogram, the count of bins equals nbins and the
returned threshold is the last bin edge (silent clamping); since the
bin-edge array of np.histogram has nbins + 1 entries, the indexing never
fails and no error is signalled. -/
theorem hist_threshold_clamp (h edges : List ℚ) (pct : ℚ)
    (hall : ∀ c ∈ cumsum_pct h, c ≤ pct) (hlen : edges.length = h.length + 1) :
    thr_from_hist h edges pct = some (edges.getD h.length 0) := by
  unfold thr_from_hist
  have hc : ((cumsum_pct h).countP fun c => decide (c ≤ pct)) = (cumsum_pct h).length :=
    List.countP_eq_length.mpr fun c hcm => decide_eq_true (hall c hcm)
  have hlcp : (cumsum_pct h).length = h.length := by
    unfold cumsum_pct cumsum
    rw [List.length_map, length_cumsumAux]
  have hb : h.length < edges.length := by omega
  rw [hc, hlcp, List.getD_eq_getElem _ _ hb, List.get?_eq_getElem?, List.getElem?_eq_getElem hb]

/-- Witness for the amended C9 at a concrete histogram. -/
theorem hist_threshold_clamp_witness :
    thr_from_hist [2, 2] [0, 50, 100] 120 = some (([0, 50, 100] : List ℚ).getD 2 0) :=
  hist_threshold_clamp [2, 2] [0, 50, 100] 120
    (by norm_num [cumsum_pct, cumsum, cumsumAux]) (by rfl)

/-- Helper: partial sums of nonnegative values are bounded below by the
accumulator and non-decreasing. -/
theorem cumsumAux_lb (l : List ℚ) : ∀ a : ℚ, (∀ x ∈ l, 0 ≤ x) →
    (∀ z ∈ cumsumAux a l, a ≤ z) ∧ List.Chain' (· ≤ ·) (cumsumAux a l) := by
  induction l with
  | nil => intro a _; exact ⟨by simp [cumsumAux], by simp [cumsumAux]⟩
  | cons x l ih =>
    intro a hpos
    have hx : 0 ≤ x := hpos x (List.mem_cons_self x l)
    have hl : ∀ y ∈ l, 0 ≤ y := fun y hy => hpos y (List.mem_cons_of_mem x hy)
    obtain ⟨ihlb, ihch⟩ := ih (a + x) hl
    constructor
    · intro z hz
      rcases List.mem_cons.mp hz with hz | hz
      · rw [hz]; linarith
      · have := ihlb z hz; linarith
    · refine List.chain'_cons'.mpr ⟨fun y hy => ?_, ihch⟩
      exact ihlb y (List.mem_of_mem_head? hy)

/-- Helper: a non-decreasing list is bounded below by its head. -/
theorem chain'_le_lb (l : List ℚ) : ∀ x : ℚ, List.Chain' (· ≤ ·) (x :: l) →
    ∀ z ∈ l, x ≤ z := by
  induction l with
  | nil => intro x _ z hz; exact absurd hz (List.not_mem_nil z)
  | cons y l ih =>
    intro x hch z hz
    obtain ⟨hxy, hch2⟩ := List.chain'_cons.mp hch
    rcases List.mem_cons.mp hz with hz | hz
    · rw [hz]; exact hxy
    · exact le_trans hxy (ih y hch2 z hz)

/-- Helper: on a non-decreasing list containing a value above pct, the
count of entries at most pct equals the index of the first entry above
pct. -/
theorem count_le_eq_findIdx (pct : ℚ) : ∀ l : List ℚ, List.Chain' (· ≤ ·) l →
    (∃ c ∈ l, pct < c) →
    (l.countP fun c => decide (c ≤ pct)) = l.findIdx fun c => decide (pct < c) := by
  intro l
  induction l with
  | nil => intro _ hex; obtain ⟨c, hc, _⟩ := hex; exact absurd hc (List.not_mem_nil c)
  | cons x l ih =>
    intro hch hex
    by_cases hx : pct < x
    · have htail : ∀ z ∈ l, ¬(decide (z ≤ pct) = true) := by
        intro z hz
        have hxz : x ≤ z := chain'_le_lb l x hch z hz
        simp only [decide_eq_true_eq]
        linarith
      rw [List.countP_cons, List.findIdx_cons]
      have hpx : (decide (x ≤ pct)) = false := by
        simp only [decide_eq_false_iff_not]
        linarith
      rw [hpx, List.countP_eq_zero.mpr htail]
      simp [hx]
    · have hxle : x ≤ pct := not_lt.mp hx
      have hch2 : List.Chain' (· ≤ ·) l := hch.tail
      have hex2 : ∃ c ∈ l, pct < c := by
        obtain ⟨c, hc, hpc⟩ := hex
        rcases List.mem_cons.mp hc with hc | hc
        · exact absurd (hc ▸ hpc) hx
        · exact ⟨c, hc, hpc⟩
      rw [List.countP_cons, List.findIdx_cons]
      have hpx : (decide (x ≤ pct)) = true := decide_eq_true hxle
      have hqx : (decide (pct < x)) = false := by
        simp only [decide_eq_false_iff_not]
        exact hx
      rw [hpx, hqx]
      simp only [cond_false, if_true]
      rw [ih hch2 hex2]

/-- C5: the histogram threshold indexes the bin-edge array with the count
of bins whose cumulative percentage is at most the target percentile; for
a histogram with nonnegative counts and positive total mass this count
equals the index of the first bin whose cumulative percentage exceeds the
percentile, and for a uniform pooled histogram over the range [0, 100]
with percentile 50 the returned threshold is exactly the midpoint bin
edge 50. -/
theorem hist_threshold_first_exceed (h edges : List ℚ) (pct : ℚ)
    (hpos : ∀ x ∈ h, 0 ≤ x) (hs : 0 < h.sum)
    (hex : ∃ c ∈ cumsum_pct h, pct < c) :
    thr_from_hist h edges pct =
      edges.get? ((cumsum_pct h).findIdx fun c => decide (pct < c)) ∧
    thr_from_hist (List.replicate 10 1) ((List.range 11).map fun i => (i : ℚ) * 10) 50 =
      some 50 := by
  constructor
  · unfold thr_from_hist
    have hch0 : List.Chain' (· ≤ ·) (cumsum h) := (cumsumAux_lb h 0 hpos).2
    have hch : List.Chain' (· ≤ ·) (cumsum_pct h) := by
      unfold cumsum_pct
      rw [List.chain'_map]
      refine hch0.imp fun a b hab => ?_
      exact mul_le_mul_of_nonneg_right ((div_le_div_iff_of_pos_right hs).mpr hab) (by norm_num)
    rw [count_le_eq_findIdx pct (cumsum_pct h) hch hex]
  · norm_num [thr_from_hist, cumsum_pct, cumsum, cumsumAux, List.countP_cons, List.countP_nil,
      List.range_succ]

/-- Witness for C5 at a concrete histogram with an exceeding bin. -/
theorem hist_threshold_first_exceed_witness :
    (thr_from_hist [1, 1] [0, 50, 100] 50 =
      ([0, 50, 100] : List ℚ).get? ((cumsum_pct [1, 1]).findIdx fun c => decide (50 < c)) ∧
    thr_from_hist (List.replicate 10 1) ((List.range 11).map fun i => (i : ℚ) * 10) 50 =
      some 50) :=
  hist_threshold_first_exceed [1, 1] [0, 50, 100] 50 (by norm_num)
    (by norm_num)
    (by exact ⟨100, by norm_num [cumsum_pct, cumsum, cumsumAux], by norm_num⟩)

/-- Helper: a zipWith product with an all-zero left column is zero
everywhere. -/
theorem zipWith_zero_left (n : ℕ) : ∀ l : List ℚ,
    ∀ z ∈ List.zipWith (fun a b => a * b) (List.replicate n 0) l, z = 0 := by
  induction n with
  | zero => intro l z hz; simp at hz
  | succ m ih =>
    intro l z hz
    cases l with
    | nil => simp at hz
    | cons b l =>
      rw [List.replicate_succ, List.zipWith_cons_cons] at hz
      rcases List.mem_cons.mp hz with hz | hz
      · rw [hz]; ring
      · exact ih l z hz

/-- Helper: a zipWith product with an all-zero right column is zero
everywhere. -/
theorem zipWith_zero_right (n : ℕ) : ∀ l : List ℚ,
    ∀ z ∈ List.zipWith (fun a b => a * b) l (List.replicate n 0), z = 0 := by
  induction n with
  | zero => intro l z hz; simp at hz
  | succ m ih =>
    intro l z hz
    cases l with
    | nil => simp at hz
    | cons b l =>
      rw [List.replicate_succ, List.zipWith_cons_cons] at hz
      rcases List.mem_cons.mp hz with hz | hz
      · rw [hz]; ring
      · exact ih l z hz

/-- C10: a constant (zero-variance) node column is z-scored to all-NaN
(the standard deviation is 0 and 0/0 is NaN in floating point), which the
nan_to_num cleanup converts to 0 rather than raising an error, so the
pipeline proceeds with that node column identically zero and every edge
column involving that node identically zero. -/
theorem constant_node_zeroed (sq : ℚ → ℚ) (cols : List (List ℚ)) (j : ℕ) (c : ℚ)
    (hsq : sq 0 = 0) (hne : cols.getD j [] ≠ [])
    (hconst : ∀ x ∈ cols.getD j [], x = c) :
    zscoreCol sq (cols.getD j []) =
      List.replicate (cols.getD j []).length FloatVal.nan ∧
    (z_ts_of sq cols).getD j [] = List.replicate (cols.getD j []).length 0 ∧
    (∀ p ∈ edgePairs cols.length, p.1 = j ∨ p.2 = j →
      ∀ z ∈ List.zipWith (fun a b => a * b)
        ((z_ts_of sq cols).getD p.1 []) ((z_ts_of sq cols).getD p.2 []), z = 0) := by
  have hlen : (cols.getD j []).length ≠ 0 := by
    intro h0
    exact hne (List.length_eq_zero.mp h0)
  have hmean : colMean (cols.getD j []) = c := by
    unfold colMean
    have hrep : cols.getD j [] = List.replicate (cols.getD j []).length c :=
      List.eq_replicate_iff.mpr ⟨rfl, hconst⟩
    rw [hrep]
    rw [List.sum_replicate, List.length_replicate, nsmul_eq_mul]
    exact mul_div_cancel_left₀ c (by exact_mod_cast hlen)
  have hss : colSS (cols.getD j []) = 0 := by
    unfold colSS
    apply List.sum_eq_zero
    intro y hy
    rw [List.mem_map] at hy
    obtain ⟨x, hx, rfl⟩ := hy
    rw [hconst x hx, hmean]
    ring
  have part1 : zscoreCol sq (cols.getD j []) =
      List.replicate (cols.getD j []).length FloatVal.nan := by
    unfold zscoreCol
    refine List.eq_replicate_iff.mpr ⟨by simp, ?_⟩
    intro b hb
    rw [List.mem_map] at hb
    obtain ⟨x, hx, rfl⟩ := hb
    rw [hconst x hx, hmean, hss]
    simp [fdiv, hsq]
  have part2 : (z_ts_of sq cols).getD j [] =
      List.replicate (cols.getD j []).length 0 := by
    have e1 : (z_ts_of sq cols).getD j [] =
        List.map nan_to_num ((zscoreMat sq cols).getD j []) :=
      getD_map_default (List.map nan_to_num) (zscoreMat sq cols) j []
    have e2 : (zscoreMat sq cols).getD j [] = zscoreCol sq (cols.getD j []) :=
      getD_map_default (zscoreCol sq) cols j []
    rw [e1, e2, part1, List.map_replicate]
    rfl
  refine ⟨part1, part2, ?_⟩
  intro p _ hp12 z hz
  rcases hp12 with h1 | h2
  · rw [h1, part2] at hz
    exact zipWith_zero_left _ _ z hz
  · rw [h2, part2] at hz
    exact zipWith_zero_right _ _ z hz

/-- Witness for C10 at a concrete matrix whose node 0 is constant. -/
theorem constant_node_zeroed_witness :
    (zscoreCol id (([[2, 2], [1, 5]] : List (List ℚ)).getD 0 []) =
      List.replicate (([[2, 2], [1, 5]] : List (List ℚ)).getD 0 []).length FloatVal.nan ∧
    (z_ts_of id [[2, 2], [1, 5]]).getD 0 [] =
      List.replicate (([[2, 2], [1, 5]] : List (List ℚ)).getD 0 []).length 0 ∧
    (∀ p ∈ edgePairs ([[2, 2], [1, 5]] : List (List ℚ)).length, p.1 = 0 ∨ p.2 = 0 →
      ∀ z ∈ List.zipWith (fun a b => a * b)
        ((z_ts_of id [[2, 2], [1, 5]]).getD p.1 [])
        ((z_ts_of id [[2, 2], [1, 5]]).getD p.2 []), z = 0)) :=
  constant_node_zeroed id [[2, 2], [1, 5]] 0 2 rfl (by decide) (by decide)

/-- Helper: membership in npUnique is membership in the underlying list. -/
theorem mem_npUnique (a : ℤ) (l : List ℤ) : a ∈ npUnique l ↔ a ∈ l := by
  unfold npUnique
  rw [Finset.mem_sort, List.mem_toFinset]

/-- Helper: npUnique is sorted. -/
theorem npUnique_sorted (l : List ℤ) : List.Sorted (· ≤ ·) (npUnique l) :=
  Finset.sort_sorted _ _

/-- Helper: npUnique has no duplicates. -/
theorem npUnique_nodup (l : List ℤ) : (npUnique l).Nodup :=
  Finset.sort_nodup _ _

/-- Helper: a head value occurring again later does not change npUnique. -/
theorem npUnique_cons_of_mem (a : ℤ) (l : List ℤ) (h : a ∈ l) :
    npUnique (a :: l) = npUnique l := by
  unfold npUnique
  rw [List.toFinset_cons, Finset.insert_eq_self.mpr (List.mem_toFinset.mpr h)]

/-- Helper: a head value strictly below every later value is the head of
npUnique. -/
theorem npUnique_cons_of_lt (a : ℤ) (l : List ℤ) (h : ∀ b ∈ l, a < b) :
    npUnique (a :: l) = a :: npUnique l := by
  have hnotm : a ∉ npUnique l := by
    intro hm
    exact lt_irrefl a (h a ((mem_npUnique a l).mp hm))
  have hnd2 : (a :: npUnique l).Nodup := List.nodup_cons.mpr ⟨hnotm, npUnique_nodup l⟩
  have hperm : (npUnique (a :: l)).Perm (a :: npUnique l) := by
    refine (List.perm_ext_iff_of_nodup (npUnique_nodup (a :: l)) hnd2).mpr ?_
    intro b
    rw [mem_npUnique]
    simp [List.mem_cons, mem_npUnique]
  have hs1 : List.Sorted (· ≤ ·) (npUnique (a :: l)) := npUnique_sorted (a :: l)
  have hs2 : List.Sorted (· ≤ ·) (a :: npUnique l) := by
    refine List.sorted_cons.mpr ⟨?_, npUnique_sorted l⟩
    intro b hb
    exact le_of_lt (h b ((mem_npUnique b l).mp hb))
  exact List.eq_of_perm_of_sorted hperm hs1 hs2

/-- Helper: if a list contains a and a is a lower bound of it, then
npUnique starts with a, followed by values different from a. -/
theorem npUnique_head_of_lb (a : ℤ) (l : List ℤ) (hmem : a ∈ l)
    (hlb : ∀ z ∈ l, a ≤ z) :
    ∃ us, npUnique l = a :: us ∧ ∀ u ∈ us, u ≠ a := by
  have hmemU : a ∈ npUnique l := (mem_npUnique a l).mpr hmem
  have hneU : npUnique l ≠ [] := List.ne_nil_of_mem hmemU
  obtain ⟨u1, us, heq⟩ := List.exists_cons_of_ne_nil hneU
  have hsorted := npUnique_sorted l
  rw [heq] at hsorted
  obtain ⟨hub, _⟩ := List.sorted_cons.mp hsorted
  have hu1l : u1 ∈ l := by
    apply (mem_npUnique u1 l).mp
    rw [heq]
    exact List.mem_cons_self u1 us
  have h1 : a ≤ u1 := hlb u1 hu1l
  have h2 : u1 ≤ a := by
    rw [heq] at hmemU
    rcases List.mem_cons.mp hmemU with h | h
    · exact le_of_eq h.symm
    · exact hub a h
  have hu1a : u1 = a := le_antisymm h2 h1
  have hnd := npUnique_nodup l
  rw [heq] at hnd
  refine ⟨us, by rw [heq, hu1a], ?_⟩
  intro u hu hua
  have hnotm : u1 ∉ us := (List.nodup_cons.mp hnd).1
  rw [hua, ← hu1a] at hu
  exact hnotm hu

/-- Helper: along a strictly increasing index list, the dff value of the
head is a lower bound of all dff values. -/
theorem dffList_lb (l : List ℕ) : ∀ (a k : ℕ), List.Chain' (· < ·) (a :: l) →
    ∀ z ∈ dffList k (a :: l), (a : ℤ) - (k : ℤ) ≤ z := by
  induction l with
  | nil =>
    intro a k _ z hz
    have he : dffList k [a] = [(a : ℤ) - (k : ℤ)] := rfl
    rw [he, List.mem_singleton] at hz
    rw [hz]
  | cons b l ih =>
    intro a k hch z hz
    obtain ⟨hab, hch2⟩ := List.chain'_cons.mp hch
    have he : dffList k (a :: b :: l) = ((a : ℤ) - (k : ℤ)) :: dffList (k + 1) (b :: l) := rfl
    rw [he] at hz
    rcases List.mem_cons.mp hz with hz | hz
    · rw [hz]
    · have hb := ih b (k + 1) hch2 z hz
      have hstep : (a : ℤ) - (k : ℤ) ≤ (b : ℤ) - ((k + 1 : ℕ) : ℤ) := by
        push_cast
        omega
      linarith

/-- Helper: a value strictly below every dff value selects nothing. -/
theorem groupOf_eq_nil (u : ℤ) (l : List ℕ) : ∀ k : ℕ, (∀ z ∈ dffList k l, u < z) →
    groupOf u k l = [] := by
  induction l with
  | nil => intro k _; rfl
  | cons x l ih =>
    intro k hlt
    have he : dffList k (x :: l) = ((x : ℤ) - (k : ℤ)) :: dffList (k + 1) l := rfl
    have hx : u < (x : ℤ) - (k : ℤ) := by
      apply hlt
      rw [he]
      exact List.mem_cons_self _ _
    have hcond : ¬((x : ℤ) - (k : ℤ) = u) := fun heq => lt_irrefl u (heq ▸ hx)
    have hg : groupOf u k (x :: l) =
        if (x : ℤ) - (k : ℤ) = u then x :: groupOf u (k + 1) l else groupOf u (k + 1) l := rfl
    rw [hg, if_neg hcond]
    apply ih
    intro z hz
    apply hlt
    rw [he]
    exact List.mem_cons_of_mem _ hz

/-- Helper: the run equation of splitRuns when the second element continues
the run of the first. -/
theorem splitRuns_run (x y : ℕ) (rest : List ℕ) (h : y = x + 1) :
    splitRuns (x :: y :: rest) =
      (x :: (splitRuns (y :: rest)).headI) :: (splitRuns (y :: rest)).tail := by
  have he : splitRuns (x :: y :: rest) =
      if y = x + 1 then (x :: (splitRuns (y :: rest)).headI) :: (splitRuns (y :: rest)).tail
      else [x] :: splitRuns (y :: rest) := rfl
  rw [he, if_pos h]

/-- Helper: the break equation of splitRuns when the second element starts
a new run. -/
theorem splitRuns_brk (x y : ℕ) (rest : List ℕ) (h : ¬(y = x + 1)) :
    splitRuns (x :: y :: rest) = [x] :: splitRuns (y :: rest) := by
  have he : splitRuns (x :: y :: rest) =
      if y = x + 1 then (x :: (splitRuns (y :: rest)).headI) :: (splitRuns (y :: rest)).tail
      else [x] :: splitRuns (y :: rest) := rfl
  rw [he, if_neg h]

/-- Helper: splitRuns of a nonempty list is nonempty. -/
theorem splitRuns_ne_nil (x : ℕ) (t : List ℕ) : splitRuns (x :: t) ≠ [] := by
  cases t with
  | nil => simp [splitRuns]
  | cons y rest =>
    by_cases h : y = x + 1
    · rw [splitRuns_run x y rest h]
      exact List.cons_ne_nil _ _
    · rw [splitRuns_brk x y rest h]
      exact List.cons_ne_nil _ _

/-- Helper: every group produced by splitRuns is nonempty. -/
theorem splitRuns_forall_ne_nil : ∀ l : List ℕ, ∀ g ∈ splitRuns l, g ≠ [] := by
  intro l
  induction l with
  | nil => intro g hg; simp [splitRuns] at hg
  | cons x t ih =>
    cases t with
    | nil =>
      intro g hg
      have he : splitRuns [x] = [[x]] := rfl
      rw [he, List.mem_singleton] at hg
      rw [hg]
      exact List.cons_ne_nil _ _
    | cons y rest =>
      intro g hg
      by_cases h : y = x + 1
      · rw [splitRuns_run x y rest h] at hg
        rcases List.mem_cons.mp hg with hg | hg
        · rw [hg]
          exact List.cons_ne_nil _ _
        · exact ih g (List.mem_of_mem_tail hg)
      · rw [splitRuns_brk x y rest h] at hg
        rcases List.mem_cons.mp hg with hg | hg
        · rw [hg]
          exact List.cons_ne_nil _ _
        · exact ih g hg

/-- Helper: the scanned first-argmax is a member of the scanned list. -/
theorem firstArgmax_mem (rss : ℕ → ℚ) : ∀ (l : List ℕ) (x : ℕ),
    firstArgmax rss x l ∈ x :: l := by
  intro l
  induction l with
  | nil =>
    intro x
    have he : firstArgmax rss x [] = x := rfl
    rw [he]
    exact List.mem_cons_self _ _
  | cons y l ih =>
    intro x
    have he : firstArgmax rss x (y :: l) =
        if rss x < rss y then firstArgmax rss y l else firstArgmax rss x l := rfl
    rw [he]
    by_cases h : rss x < rss y
    · rw [if_pos h]
      exact List.mem_cons_of_mem x (ih y)
    · rw [if_neg h]
      rcases List.mem_cons.mp (ih x) with hm | hm
      · rw [hm]
        exact List.mem_cons_self _ _
      · exact List.mem_cons_of_mem x (List.mem_cons_of_mem y hm)

/-- Helper: the scanned first-argmax attains the maximal rss value on the
scanned list. -/
theorem firstArgmax_le (rss : ℕ → ℚ) : ∀ (l : List ℕ) (x : ℕ), ∀ i ∈ x :: l,
    rss i ≤ rss (firstArgmax rss x l) := by
  intro l
  induction l with
  | nil =>
    intro x i hi
    rw [List.mem_singleton] at hi
    have he : firstArgmax rss x [] = x := rfl
    rw [hi, he]
  | cons y l ih =>
    intro x i hi
    have he : firstArgmax rss x (y :: l) =
        if rss x < rss y then firstArgmax rss y l else firstArgmax rss x l := rfl
    rw [he]
    by_cases h : rss x < rss y
    · rw [if_pos h]
      rcases List.mem_cons.mp hi with hi | hi
      · have hy := ih y y (List.mem_cons_self y l)
        rw [hi]
        linarith
      · exact ih y i hi
    · rw [if_neg h]
      rcases List.mem_cons.mp hi with hi | hi
      · rw [hi]
        exact ih x x (List.mem_cons_self x l)
      · rcases List.mem_cons.mp hi with hi2 | hi2
        · have hx := ih x x (List.mem_cons_self x l)
          have hyx : rss y ≤ rss x := not_lt.mp h
          rw [hi2]
          linarith
        · exact ih x i (List.mem_cons_of_mem x hi2)

/-- Helper, main induction: for a strictly increasing index list, grouping
by equal dff values (with np.unique over the dff list) yields exactly the
maximal runs of consecutive indices produced by the explicit scan. -/
theorem dffGroupsAux_eq_splitRuns : ∀ (idx : List ℕ) (k : ℕ),
    List.Chain' (· < ·) idx → dffGroupsAux k idx = splitRuns idx := by
  intro idx
  induction idx with
  | nil =>
    intro k _
    simp [dffGroupsAux, dffList, npUnique, splitRuns]
  | cons x t ih =>
    intro k hch
    cases t with
    | nil =>
      have he : dffList k [x] = [(x : ℤ) - (k : ℤ)] := rfl
      have hu : npUnique [(x : ℤ) - (k : ℤ)] = [(x : ℤ) - (k : ℤ)] := by
        unfold npUnique
        simp [Finset.sort_singleton]
      have hg : groupOf ((x : ℤ) - (k : ℤ)) k [x] = [x] := by
        have hgg : groupOf ((x : ℤ) - (k : ℤ)) k [x] =
            if (x : ℤ) - (k : ℤ) = (x : ℤ) - (k : ℤ) then
              x :: groupOf ((x : ℤ) - (k : ℤ)) (k + 1) [] else
              groupOf ((x : ℤ) - (k : ℤ)) (k + 1) [] := rfl
        rw [hgg, if_pos rfl]
        rfl
      unfold dffGroupsAux
      rw [he, hu, List.map_cons, hg]
      rfl
    | cons y rest =>
      have hxy : x < y := (List.chain'_cons.mp hch).1
      have hcht : List.Chain' (· < ·) (y :: rest) := (List.chain'_cons.mp hch).2
      have ihy := ih (k + 1) hcht
      have hdl : dffList k (x :: y :: rest) =
          ((x : ℤ) - (k : ℤ)) :: dffList (k + 1) (y :: rest) := rfl
      by_cases hrun : y = x + 1
      · subst hrun
        have hveq : (x : ℤ) - (k : ℤ) = ((x + 1 : ℕ) : ℤ) - ((k + 1 : ℕ) : ℤ) := by
          push_cast
          ring
        have hmem : ((x : ℤ) - (k : ℤ)) ∈ dffList (k + 1) ((x + 1) :: rest) := by
          have hd2 : dffList (k + 1) ((x + 1) :: rest) =
              (((x + 1 : ℕ) : ℤ) - ((k + 1 : ℕ) : ℤ)) :: dffList (k + 2) rest := rfl
          rw [hd2, hveq]
          exact List.mem_cons_self _ _
        have hlb : ∀ z ∈ dffList (k + 1) ((x + 1) :: rest), (x : ℤ) - (k : ℤ) ≤ z := by
          intro z hz
          have := dffList_lb rest (x + 1) (k + 1) hcht z hz
          rw [hveq]
          exact this
        obtain ⟨us, hUeq, hus⟩ := npUnique_head_of_lb ((x : ℤ) - (k : ℤ))
          (dffList (k + 1) ((x + 1) :: rest)) hmem hlb
        have hU : npUnique (dffList k (x :: (x + 1) :: rest)) =
            ((x : ℤ) - (k : ℤ)) :: us := by
          rw [hdl, npUnique_cons_of_mem _ _ hmem, hUeq]
        have hgx : groupOf ((x : ℤ) - (k : ℤ)) k (x :: (x + 1) :: rest) =
            x :: groupOf ((x : ℤ) - (k : ℤ)) (k + 1) ((x + 1) :: rest) := by
          have hgg : groupOf ((x : ℤ) - (k : ℤ)) k (x :: (x + 1) :: rest) =
              if (x : ℤ) - (k : ℤ) = (x : ℤ) - (k : ℤ) then
                x :: groupOf ((x : ℤ) - (k : ℤ)) (k + 1) ((x + 1) :: rest) else
                groupOf ((x : ℤ) - (k : ℤ)) (k + 1) ((x + 1) :: rest) := rfl
          rw [hgg, if_pos rfl]
        have hcong : ∀ u ∈ us, groupOf u k (x :: (x + 1) :: rest) =
            groupOf u (k + 1) ((x + 1) :: rest) := by
          intro u hu
          have hne : ¬((x : ℤ) - (k : ℤ) = u) := fun heq => hus u hu heq.symm
          have hgg : groupOf u k (x :: (x + 1) :: rest) =
              if (x : ℤ) - (k : ℤ) = u then x :: groupOf u (k + 1) ((x + 1) :: rest)
              else groupOf u (k + 1) ((x + 1) :: rest) := rfl
          rw [hgg, if_neg hne]
        unfold dffGroupsAux at ihy ⊢
        rw [hUeq, List.map_cons] at ihy
        rw [hU, List.map_cons, hgx, List.map_congr_left hcong,
          splitRuns_run x (x + 1) rest rfl, ← ihy]
        rfl
      · have hstep : (x : ℤ) - (k : ℤ) < ((y : ℕ) : ℤ) - ((k + 1 : ℕ) : ℤ) := by
          have : x + 1 < y := by omega
          push_cast
          omega
        have hlbD : ∀ z ∈ dffList (k + 1) (y :: rest), (x : ℤ) - (k : ℤ) < z := by
          intro z hz
          have := dffList_lb rest y (k + 1) hcht z hz
          linarith
        have hU : npUnique (dffList k (x :: y :: rest)) =
            ((x : ℤ) - (k : ℤ)) :: npUnique (dffList (k + 1) (y :: rest)) := by
          rw [hdl]
          exact npUnique_cons_of_lt _ _ hlbD
        have hgx : groupOf ((x : ℤ) - (k : ℤ)) k (x :: y :: rest) = [x] := by
          have hgg : groupOf ((x : ℤ) - (k : ℤ)) k (x :: y :: rest) =
              if (x : ℤ) - (k : ℤ) = (x : ℤ) - (k : ℤ) then
                x :: groupOf ((x : ℤ) - (k : ℤ)) (k + 1) (y :: rest) else
                groupOf ((x : ℤ) - (k : ℤ)) (k + 1) (y :: rest) := rfl
          rw [hgg, if_pos rfl, groupOf_eq_nil _ _ _ hlbD]
        have hcong : ∀ u ∈ npUnique (dffList (k + 1) (y :: rest)),
            groupOf u k (x :: y :: rest) = groupOf u (k + 1) (y :: rest) := by
          intro u hu
          have hlt : (x : ℤ) - (k : ℤ) < u :=
            hlbD u ((mem_npUnique u _).mp hu)
          have hne : ¬((x : ℤ) - (k : ℤ) = u) := ne_of_lt hlt
          have hgg : groupOf u k (x :: y :: rest) =
              if (x : ℤ) - (k : ℤ) = u then x :: groupOf u (k + 1) (y :: rest)
              else groupOf u (k + 1) (y :: rest) := rfl
          rw [hgg, if_neg hne]
        unfold dffGroupsAux at ihy ⊢
        rw [hU, List.map_cons, hgx, List.map_congr_left hcong, ihy,
          splitRuns_brk x y rest hrun]

/-- C2: for a sorted candidate index set, grouping by equal values of
idx[k] - k yields exactly the maximal contiguous runs of consecutive
indices that the explicit adjacent-comparison scan produces, the PeakSet
is identical under either formulation, and the peak reported for each run
is a member of the run whose observed RSS is maximal within the run. -/
theorem event_segmentation_equiv (rss : ℕ → ℚ) (idx : List ℕ)
    (hsorted : List.Chain' (· < ·) idx) :
    segmentsByDff idx = splitRuns idx ∧
    idxpeak_dff rss idx = idxpeak_scan rss idx ∧
    ∀ g ∈ splitRuns idx, peakOf rss g ∈ g ∧ ∀ i ∈ g, rss i ≤ rss (peakOf rss g) := by
  have hseg : segmentsByDff idx = splitRuns idx :=
    dffGroupsAux_eq_splitRuns idx 0 hsorted
  refine ⟨hseg, ?_, ?_⟩
  · unfold idxpeak_dff idxpeak_scan
    rw [hseg]
  · intro g hg
    have hne : g ≠ [] := splitRuns_forall_ne_nil idx g hg
    obtain ⟨a, t, rfl⟩ := List.exists_cons_of_ne_nil hne
    constructor
    · exact firstArgmax_mem rss t a
    · intro i hi
      exact firstArgmax_le rss t a i hi

/-- Witness for C2 at a concrete sorted index set with two runs. -/
theorem event_segmentation_equiv_witness :
    (segmentsByDff [1, 2, 5, 6] = splitRuns [1, 2, 5, 6] ∧
    idxpeak_dff (fun n => ([0, 5, 3, 0, 0, 7, 2] : List ℚ).getD n 0) [1, 2, 5, 6] =
      idxpeak_scan (fun n => ([0, 5, 3, 0, 0, 7, 2] : List ℚ).getD n 0) [1, 2, 5, 6] ∧
    ∀ g ∈ splitRuns [1, 2, 5, 6],
      peakOf (fun n => ([0, 5, 3, 0, 0, 7, 2] : List ℚ).getD n 0) g ∈ g ∧
      ∀ i ∈ g, ([0, 5, 3, 0, 0, 7, 2] : List ℚ).getD i 0 ≤
        ([0, 5, 3, 0, 0, 7, 2] : List ℚ).getD
          (peakOf (fun n => ([0, 5, 3, 0, 0, 7, 2] : List ℚ).getD n 0) g) 0) :=
  event_segmentation_equiv (fun n => ([0, 5, 3, 0, 0, 7, 2] : List ℚ).getD n 0)
    [1, 2, 5, 6] (by norm_num [List.chain'_cons])
